import Mathlib

/-!
Shallow embedding of `src/projector_core.cpp` (`project_ray_to_voxels`).

Modelling decisions:
- C++ `double`/`float` arithmetic is modelled over the real numbers `ℝ`;
  `std::sqrt`, `std::tan` and `M_PI` become `Real.sqrt`, `Real.tan`,
  `Real.pi`.
- `static_cast<int>` on a floating value truncates toward zero; this is
  `truncToInt` below (floor for nonnegative arguments, ceiling for
  negative ones).  C++ `int` is modelled by unbounded `ℤ`.
- The numpy voxel grid is modelled as a total function `ℤ → ℤ → ℤ → ℝ`;
  the in-place `voxel_grid(ix, iy, iz) += brightness` becomes a
  functional pointwise update.  The C++ buffer access is unchecked, so
  the mathematical grid is indexed by all of `ℤ³`; the source's own
  bounds test guards every write.
- The `for (int i = 0; i < step_count; ++i)` loop becomes a `List.foldl`
  over `List.range step_count`.
-/

noncomputable section

/-- The `Vec3` struct of the source: three real coordinates. -/
structure Vec3 where
  x : ℝ
  y : ℝ
  z : ℝ
deriving DecidableEq

/-- The full scalar parameter list of `project_ray_to_voxels`. -/
structure Params where
  p_x : ℤ
  p_y : ℤ
  cam_pos_x : ℝ
  cam_pos_y : ℝ
  cam_pos_z : ℝ
  img_w : ℤ
  img_h : ℤ
  fov_degrees : ℝ
  grid_size : ℤ
  grid_world_size : ℝ
  brightness : ℝ

/-- The voxel grid: a mutable 3-D array of single-precision floats,
modelled as a total real-valued function on integer index triples. -/
def Grid : Type := ℤ → ℤ → ℤ → ℝ

/-- The all-zero grid (a zero-initialized numpy array). -/
def zeroGrid : Grid := fun _ _ _ => 0

/-- `static_cast<int>` on a floating value: truncation toward zero. -/
def truncToInt (v : ℝ) : ℤ := if 0 ≤ v then ⌊v⌋ else ⌈v⌉

/-- Line 53: `fov_rad = fov_degrees * (M_PI / 180.0)`. -/
def fov_rad (p : Params) : ℝ := p.fov_degrees * (Real.pi / 180)

/-- Line 55: `focal_length = (img_w / 2.0) / tan(fov_rad / 2.0)`. -/
def focal_length (p : Params) : ℝ :=
  ((p.img_w : ℝ) / 2) / Real.tan (fov_rad p / 2)

/-- Lines 59-62: the camera-space direction before normalization. -/
def ray_cam (p : Params) : Vec3 :=
  { x := (p.p_x : ℝ) - (p.img_w : ℝ) / 2
    y := (p.p_y : ℝ) - (p.img_h : ℝ) / 2
    z := -(focal_length p) }

/-- Line 65: the Euclidean norm `sqrt(x*x + y*y + z*z)` of a vector. -/
def vecNorm (v : Vec3) : ℝ := Real.sqrt (v.x * v.x + v.y * v.y + v.z * v.z)

/-- Lines 65-74: normalize the camera-space direction when its norm
exceeds `1e-6`, otherwise leave it unnormalized; camera space is
world space (no rotation). -/
def ray_world_dir (p : Params) : Vec3 :=
  if vecNorm (ray_cam p) > 1e-6 then
    { x := (ray_cam p).x / vecNorm (ray_cam p)
      y := (ray_cam p).y / vecNorm (ray_cam p)
      z := (ray_cam p).z / vecNorm (ray_cam p) }
  else ray_cam p

/-- Line 75: the ray origin is the camera world position. -/
def ray_origin (p : Params) : Vec3 :=
  { x := p.cam_pos_x, y := p.cam_pos_y, z := p.cam_pos_z }

/-- Line 80: `voxel_size = grid_world_size / grid_size`. -/
def voxel_size (p : Params) : ℝ := p.grid_world_size / (p.grid_size : ℝ)

/-- Line 81: `grid_half_size = grid_world_size / 2.0`. -/
def grid_half_size (p : Params) : ℝ := p.grid_world_size / 2

/-- Line 86: `t_max = grid_world_size * 2.0`. -/
def t_max (p : Params) : ℝ := p.grid_world_size * 2

/-- Line 88: `step_count = 500`. -/
def step_count : ℕ := 500

/-- Line 89: `step_size = t_max / step_count`. -/
def step_size (p : Params) : ℝ := t_max p / (step_count : ℝ)

/-- Lines 92-97: the sample point at loop iteration `i`:
`origin + (i * step_size) * dir`, componentwise. -/
def current_point (p : Params) (i : ℕ) : Vec3 :=
  { x := (ray_origin p).x + ((i : ℝ) * step_size p) * (ray_world_dir p).x
    y := (ray_origin p).y + ((i : ℝ) * step_size p) * (ray_world_dir p).y
    z := (ray_origin p).z + ((i : ℝ) * step_size p) * (ray_world_dir p).z }

/-- Lines 101-103, one axis: `static_cast<int>(((c + grid_half_size) /
grid_world_size) * grid_size)`. -/
def coordIndexAx (w : ℝ) (s : ℤ) (c : ℝ) : ℤ :=
  truncToInt (((c + w / 2) / w) * (s : ℝ))

/-- Lines 101-103 for a given parameter set. -/
def coordIndex (p : Params) (c : ℝ) : ℤ :=
  coordIndexAx p.grid_world_size p.grid_size c

/-- The index triple `(ix, iy, iz)` of sample `i`. -/
def sampleIdx (p : Params) (i : ℕ) : ℤ × ℤ × ℤ :=
  (coordIndex p (current_point p i).x,
   coordIndex p (current_point p i).y,
   coordIndex p (current_point p i).z)

/-- Line 106: the bounds check `ix >= 0 && ix < grid_size && ...`. -/
def inIdxBounds (p : Params) (t : ℤ × ℤ × ℤ) : Prop :=
  0 ≤ t.1 ∧ t.1 < p.grid_size ∧ 0 ≤ t.2.1 ∧ t.2.1 < p.grid_size ∧
    0 ≤ t.2.2 ∧ t.2.2 < p.grid_size

instance (p : Params) (t : ℤ × ℤ × ℤ) : Decidable (inIdxBounds p t) := by
  unfold inIdxBounds; exact inferInstance

/-- Lines 99-110: one loop iteration.  Compute the indices of sample
`i`; when all three are in bounds, add `brightness` to that voxel. -/
def stepWrite (p : Params) (g : Grid) (i : ℕ) : Grid :=
  if inIdxBounds p (sampleIdx p i) then
    fun a b c =>
      if a = (sampleIdx p i).1 ∧ b = (sampleIdx p i).2.1 ∧
          c = (sampleIdx p i).2.2 then
        g a b c + p.brightness
      else g a b c
  else g

/-- Lines 91-111: the full marching loop, hence the whole observable
effect of `project_ray_to_voxels` on the grid. -/
def project_ray_to_voxels (p : Params) (g : Grid) : Grid :=
  (List.range step_count).foldl (stepWrite p) g

/-- The brightness contributed to cell `(a, b, c)` by loop iteration
`i`: `brightness` when the sample's indices are in bounds and equal
`(a, b, c)`, otherwise `0`. -/
def stepDelta (p : Params) (i : ℕ) (a b c : ℤ) : ℝ :=
  if inIdxBounds p (sampleIdx p i) ∧ a = (sampleIdx p i).1 ∧
      b = (sampleIdx p i).2.1 ∧ c = (sampleIdx p i).2.2 then
    p.brightness
  else 0

lemma stepWrite_apply (p : Params) (g : Grid) (i : ℕ) (a b c : ℤ) :
    stepWrite p g i a b c = g a b c + stepDelta p i a b c := by
  unfold stepWrite stepDelta
  by_cases hB : inIdxBounds p (sampleIdx p i)
  · simp only [if_pos hB]
    by_cases hHit : a = (sampleIdx p i).1 ∧ b = (sampleIdx p i).2.1 ∧
        c = (sampleIdx p i).2.2
    · simp [hB, hHit]
    · simp [hHit]
  · simp [hB]

lemma foldl_stepWrite_apply (p : Params) (l : List ℕ) :
    ∀ (g : Grid) (a b c : ℤ),
      (l.foldl (stepWrite p) g) a b c =
        g a b c + (l.map (fun i => stepDelta p i a b c)).sum := by
  induction l with
  | nil => intro g a b c; simp
  | cons i l ih =>
      intro g a b c
      simp only [List.foldl_cons, List.map_cons, List.sum_cons]
      rw [ih, stepWrite_apply]
      ring

lemma project_apply (p : Params) (g : Grid) (a b c : ℤ) :
    project_ray_to_voxels p g a b c =
      g a b c +
        ((List.range step_count).map (fun i => stepDelta p i a b c)).sum := by
  unfold project_ray_to_voxels
  exact foldl_stepWrite_apply p _ g a b c

lemma stepDelta_eq_zero_of_notBounds (p : Params) (i : ℕ) (a b c : ℤ)
    (h : ¬ inIdxBounds p (a, b, c)) : stepDelta p i a b c = 0 := by
  unfold stepDelta
  by_cases hc : inIdxBounds p (sampleIdx p i) ∧ a = (sampleIdx p i).1 ∧
      b = (sampleIdx p i).2.1 ∧ c = (sampleIdx p i).2.2
  · exfalso
    apply h
    obtain ⟨hB, ha, hb, hcc⟩ := hc
    unfold inIdxBounds at hB ⊢
    simp only at hB ⊢
    rw [ha, hb, hcc]
    exact hB
  · simp [hc]

lemma truncToInt_nonneg_iff (v : ℝ) : 0 ≤ truncToInt v ↔ -1 < v := by
  unfold truncToInt
  by_cases h : 0 ≤ v
  · simp only [if_pos h]
    constructor
    · intro _; linarith
    · intro _; exact Int.le_floor.2 (by exact_mod_cast h)
  · simp only [if_neg h]
    push_neg at h
    constructor
    · intro hc
      have h1 : (-1 : ℤ) < ⌈v⌉ := by omega
      have := Int.lt_ceil.1 h1
      push_cast at this
      linarith
    · intro hv
      have : (-1 : ℤ) < ⌈v⌉ := Int.lt_ceil.2 (by push_cast; linarith)
      omega

lemma truncToInt_lt_iff (v : ℝ) (s : ℤ) (hs : 0 < s) :
    truncToInt v < s ↔ v < (s : ℝ) := by
  unfold truncToInt
  by_cases h : 0 ≤ v
  · simp only [if_pos h]
    exact Int.floor_lt
  · simp only [if_neg h]
    push_neg at h
    constructor
    · intro _
      calc v < 0 := h
        _ ≤ (s : ℝ) := by exact_mod_cast hs.le
    · intro _
      have : ⌈v⌉ ≤ 0 := Int.ceil_le.2 (by push_cast; linarith)
      omega

/-- The scaled value whose truncation is the voxel index of `c`. -/
lemma coordIndexAx_inRange_iff (w : ℝ) (s : ℤ) (c : ℝ)
    (hw : 0 < w) (hs : 0 < s) :
    (0 ≤ coordIndexAx w s c ∧ coordIndexAx w s c < s) ↔
      (-(w / 2) - w / (s : ℝ) < c ∧ c < w / 2) := by
  have hsR : (0 : ℝ) < (s : ℝ) := by exact_mod_cast hs
  have hws : w / (s : ℝ) * s = w := div_mul_cancel₀ w (ne_of_gt hsR)
  have key1 : (-1 : ℝ) < (c + w / 2) / w * (s : ℝ) ↔
      -(w / 2) - w / (s : ℝ) < c := by
    rw [div_mul_eq_mul_div, lt_div_iff₀ hw]
    constructor
    · intro h
      have h2 : -w < (c + w / 2) * s := by linarith
      have h3 : -w / (s : ℝ) < c + w / 2 := by
        rw [div_lt_iff₀ hsR]; linarith
      rw [neg_div] at h3
      linarith
    · intro h
      have h2 : -(w / (s : ℝ)) < c + w / 2 := by linarith
      have h3 : -(w / (s : ℝ)) * s < (c + w / 2) * s :=
        (mul_lt_mul_right hsR).2 h2
      have h4 : -(w / (s : ℝ)) * s = -w := by rw [neg_mul, hws]
      linarith
  have key2 : (c + w / 2) / w * (s : ℝ) < (s : ℝ) ↔ c < w / 2 := by
    rw [div_mul_eq_mul_div, div_lt_iff₀ hw]
    constructor
    · intro h
      have h2 : (c + w / 2) * s < w * s := by linarith
      have h3 : c + w / 2 < w := (mul_lt_mul_right hsR).1 h2
      linarith
    · intro h
      have h2 : c + w / 2 < w := by linarith
      have h3 : (c + w / 2) * s < w * s := (mul_lt_mul_right hsR).2 h2
      linarith
  unfold coordIndexAx
  rw [truncToInt_nonneg_iff, truncToInt_lt_iff _ _ hs]
  exact and_congr key1 key2

/-- A family of degenerate parameter sets whose camera-space direction
is the zero vector (`img_w = img_h = 0`, `p_x = p_y = 0`, so the ray
direction is left unnormalized and equals zero): every sample point
coincides with the camera position. -/
def degParams (ox oy oz : ℝ) : Params :=
  { p_x := 0, p_y := 0, cam_pos_x := ox, cam_pos_y := oy, cam_pos_z := oz,
    img_w := 0, img_h := 0, fov_degrees := 90, grid_size := 2,
    grid_world_size := 2, brightness := 1 }

lemma focal_length_degParams (ox oy oz : ℝ) :
    focal_length (degParams ox oy oz) = 0 := by
  unfold focal_length degParams
  simp

lemma ray_cam_degParams (ox oy oz : ℝ) :
    ray_cam (degParams ox oy oz) = { x := 0, y := 0, z := 0 } := by
  unfold ray_cam
  rw [focal_length_degParams]
  simp [degParams]

lemma vecNorm_ray_cam_degParams (ox oy oz : ℝ) :
    vecNorm (ray_cam (degParams ox oy oz)) = 0 := by
  rw [ray_cam_degParams]
  unfold vecNorm
  simp

lemma ray_world_dir_degParams (ox oy oz : ℝ) :
    ray_world_dir (degParams ox oy oz) = { x := 0, y := 0, z := 0 } := by
  unfold ray_world_dir
  rw [vecNorm_ray_cam_degParams]
  rw [if_neg (by norm_num)]
  exact ray_cam_degParams ox oy oz

lemma current_point_degParams (ox oy oz : ℝ) (i : ℕ) :
    current_point (degParams ox oy oz) i = { x := ox, y := oy, z := oz } := by
  unfold current_point ray_origin
  rw [ray_world_dir_degParams]
  simp [degParams]

lemma truncToInt_eq_zero_of (v : ℝ) (h1 : -1 < v) (h2 : v ≤ 0) :
    truncToInt v = 0 := by
  unfold truncToInt
  by_cases h : 0 ≤ v
  · have hv : v = 0 := le_antisymm h2 h
    simp [hv]
  · rw [if_neg h]
    have hge : (0 : ℤ) ≤ ⌈v⌉ := by
      have : (-1 : ℤ) < ⌈v⌉ := Int.lt_ceil.2 (by push_cast; linarith)
      omega
    have hle : ⌈v⌉ ≤ 0 := Int.ceil_le.2 (by push_cast; linarith)
    omega

/-- The parameter set used for concrete refutations: a degenerate
(zero) ray direction, camera at `(-3/2, 0, 0)`, a `2 × 2 × 2` grid over
the world cube `[-1, 1]^3`, brightness `1`.  Every sample point is the
camera position itself, which lies strictly outside the world cube on
the x-axis yet truncates to the in-bounds index triple `(0, 1, 1)`. -/
def pDeg : Params := degParams (-(3 / 2)) 0 0

lemma coordIndexAx_negHalf : coordIndexAx 2 2 (-(3 / 2) : ℝ) = 0 := by
  unfold coordIndexAx
  have hv : ((-(3 / 2) : ℝ) + 2 / 2) / 2 * ((2 : ℤ) : ℝ) = -(1 / 2) := by
    norm_num
  rw [hv]
  exact truncToInt_eq_zero_of _ (by norm_num) (by norm_num)

lemma coordIndexAx_zero : coordIndexAx 2 2 (0 : ℝ) = 1 := by
  unfold coordIndexAx
  have hv : ((0 : ℝ) + 2 / 2) / 2 * ((2 : ℤ) : ℝ) = 1 := by norm_num
  rw [hv]
  unfold truncToInt
  rw [if_pos (by norm_num)]
  exact Int.floor_one

lemma sampleIdx_pDeg (i : ℕ) : sampleIdx pDeg i = (0, 1, 1) := by
  unfold sampleIdx coordIndex pDeg
  rw [current_point_degParams]
  simp only [degParams]
  rw [coordIndexAx_negHalf, coordIndexAx_zero]

lemma inIdxBounds_pDeg (i : ℕ) : inIdxBounds pDeg (sampleIdx pDeg i) := by
  rw [sampleIdx_pDeg]
  unfold inIdxBounds pDeg degParams
  simp only
  omega

lemma stepDelta_pDeg (i : ℕ) : stepDelta pDeg i 0 1 1 = 1 := by
  unfold stepDelta
  rw [if_pos]
  · show pDeg.brightness = 1
    rfl
  · refine ⟨inIdxBounds_pDeg i, ?_, ?_, ?_⟩ <;> rw [sampleIdx_pDeg]

lemma project_pDeg_val :
    project_ray_to_voxels pDeg zeroGrid 0 1 1 = 500 := by
  rw [project_apply]
  have hrep : (List.range step_count).map (fun i => stepDelta pDeg i 0 1 1) =
      List.replicate 500 (1 : ℝ) := by
    rw [List.eq_replicate_iff]
    constructor
    · simp [step_count]
    · intro x hx
      simp only [List.mem_map] at hx
      obtain ⟨i, _, hi⟩ := hx
      rw [← hi]
      exact stepDelta_pDeg i
  rw [hrep, List.sum_replicate]
  show (0 : ℝ) + 500 • (1 : ℝ) = 500
  simp

/-- Modelled from the spec (§8): the closed world cube
`[-grid_world_size/2, grid_world_size/2]^3` that a sample point may or
may not lie in. -/
def insideCube (w : ℝ) (v : Vec3) : Prop :=
  -(w / 2) ≤ v.x ∧ v.x ≤ w / 2 ∧ -(w / 2) ≤ v.y ∧ v.y ≤ w / 2 ∧
    -(w / 2) ≤ v.z ∧ v.z ≤ w / 2

/-- The exact region of world points whose index triple passes the
bounds check: the open box `(-half - voxel, half)^3` per axis. -/
def inWriteRegion (p : Params) (v : Vec3) : Prop :=
  (-(grid_half_size p) - voxel_size p < v.x ∧ v.x < grid_half_size p) ∧
  (-(grid_half_size p) - voxel_size p < v.y ∧ v.y < grid_half_size p) ∧
  (-(grid_half_size p) - voxel_size p < v.z ∧ v.z < grid_half_size p)

lemma inIdxBounds_imp_inWriteRegion (p : Params)
    (hw : 0 < p.grid_world_size) (hs : 0 < p.grid_size) (i : ℕ)
    (hB : inIdxBounds p (sampleIdx p i)) :
    inWriteRegion p (current_point p i) := by
  unfold inIdxBounds sampleIdx at hB
  simp only at hB
  obtain ⟨h1, h2, h3, h4, h5, h6⟩ := hB
  unfold coordIndex at h1 h2 h3 h4 h5 h6
  unfold inWriteRegion grid_half_size voxel_size
  exact ⟨(coordIndexAx_inRange_iff _ _ _ hw hs).1 ⟨h1, h2⟩,
         (coordIndexAx_inRange_iff _ _ _ hw hs).1 ⟨h3, h4⟩,
         (coordIndexAx_inRange_iff _ _ _ hw hs).1 ⟨h5, h6⟩⟩

/-- C1: For every invocation of `project_ray` (any ray and any grid
configuration with `grid_size > 0`), every write into the voxel grid
uses indices with `0 ≤ ix, iy, iz < grid_size`: equivalently, any cell
whose index is `< 0` or `≥ grid_size` on some axis holds the same value
after the call as before it. -/
theorem project_ray_writes_in_bounds (p : Params) (g : Grid)
    (_hgs : 0 < p.grid_size) (a b c : ℤ)
    (h : ¬ (0 ≤ a ∧ a < p.grid_size) ∨ ¬ (0 ≤ b ∧ b < p.grid_size) ∨
      ¬ (0 ≤ c ∧ c < p.grid_size)) :
    project_ray_to_voxels p g a b c = g a b c := by
  rw [project_apply]
  have hz : ∀ i : ℕ, stepDelta p i a b c = 0 := by
    intro i
    apply stepDelta_eq_zero_of_notBounds
    unfold inIdxBounds
    simp only
    rcases h with h | h | h <;> intro hB <;> exact h ⟨by tauto, by tauto⟩
  have : ((List.range step_count).map (fun i => stepDelta p i a b c)).sum = 0 := by
    apply List.sum_eq_zero
    intro x hx
    simp only [List.mem_map] at hx
    obtain ⟨i, _, hi⟩ := hx
    rw [← hi]; exact hz i
  rw [this, add_zero]

/-- Witness for C1 at concrete inputs: with the `2 × 2 × 2` grid of
`pDeg`, the out-of-bounds cell `(-1, 0, 0)` is unchanged. -/
theorem project_ray_writes_in_bounds_witness :
    0 < pDeg.grid_size ∧
    (¬ (0 ≤ (-1 : ℤ) ∧ (-1 : ℤ) < pDeg.grid_size) ∨
      ¬ (0 ≤ (0 : ℤ) ∧ (0 : ℤ) < pDeg.grid_size) ∨
      ¬ (0 ≤ (0 : ℤ) ∧ (0 : ℤ) < pDeg.grid_size)) ∧
    project_ray_to_voxels pDeg zeroGrid (-1) 0 0 = zeroGrid (-1) 0 0 := by
  have hgs : 0 < pDeg.grid_size := by
    show (0 : ℤ) < 2
    norm_num
  have hh : ¬ (0 ≤ (-1 : ℤ) ∧ (-1 : ℤ) < pDeg.grid_size) := by
    intro hc
    have := hc.1
    norm_num at this
  exact ⟨hgs, Or.inl hh,
    project_ray_writes_in_bounds pDeg zeroGrid hgs (-1) 0 0 (Or.inl hh)⟩

/-- Counterexample to C2 as stated: with `pDeg` every one of the 500
sample points is `(-3/2, 0, 0)`, strictly outside the world cube
`[-1, 1]^3`, yet the call changes the grid (cell `(0, 1, 1)` gains
`500 * brightness`), because `-3/2` truncates to the in-bounds index
`0`. -/
theorem outside_cube_still_writes_cex :
    (∀ i, i < step_count →
      ¬ insideCube pDeg.grid_world_size (current_point pDeg i)) ∧
    project_ray_to_voxels pDeg zeroGrid 0 1 1 ≠ zeroGrid 0 1 1 := by
  constructor
  · intro i _
    unfold pDeg
    rw [current_point_degParams]
    unfold insideCube
    simp only [degParams]
    intro hc
    have hx := hc.1
    norm_num at hx
  · rw [project_pDeg_val]
    unfold zeroGrid
    norm_num

/-- C2 amended: a ray all of whose 500 sample points lie outside the
open box `(-grid_world_size/2 - voxel_size, grid_world_size/2)^3`
(the exact region whose truncated indices pass the bounds check)
leaves every voxel of the grid unchanged. -/
theorem project_ray_outside_write_region_unchanged (p : Params) (g : Grid)
    (hw : 0 < p.grid_world_size) (hs : 0 < p.grid_size)
    (hout : ∀ i, i < step_count → ¬ inWriteRegion p (current_point p i))
    (a b c : ℤ) :
    project_ray_to_voxels p g a b c = g a b c := by
  rw [project_apply]
  have hz : ((List.range step_count).map (fun i => stepDelta p i a b c)).sum
      = 0 := by
    apply List.sum_eq_zero
    intro x hx
    simp only [List.mem_map, List.mem_range] at hx
    obtain ⟨i, hi, hix⟩ := hx
    rw [← hix]
    unfold stepDelta
    rw [if_neg]
    intro hc
    exact hout i hi (inIdxBounds_imp_inWriteRegion p hw hs i hc.1)
  rw [hz, add_zero]

/-- A parameter set whose (degenerate, zero-direction) ray samples the
single point `(10, 0, 0)`, far outside the write region of its
`[-1, 1]^3` world cube. -/
def pFar : Params := degParams 10 0 0

/-- Witness for the amended C2 at concrete inputs. -/
theorem project_ray_outside_write_region_unchanged_witness :
    0 < pFar.grid_world_size ∧ 0 < pFar.grid_size ∧
    (∀ i, i < step_count → ¬ inWriteRegion pFar (current_point pFar i)) ∧
    project_ray_to_voxels pFar zeroGrid 0 0 0 = zeroGrid 0 0 0 := by
  have hw : 0 < pFar.grid_world_size := by
    show (0 : ℝ) < 2
    norm_num
  have hs : 0 < pFar.grid_size := by
    show (0 : ℤ) < 2
    norm_num
  have hout : ∀ i, i < step_count →
      ¬ inWriteRegion pFar (current_point pFar i) := by
    intro i _
    unfold pFar
    rw [current_point_degParams]
    unfold inWriteRegion grid_half_size voxel_size
    simp only [degParams]
    intro hc
    have hx := hc.1.2
    norm_num at hx
  exact ⟨hw, hs, hout,
    project_ray_outside_write_region_unchanged pFar zeroGrid hw hs hout 0 0 0⟩

/-- C9: truncation toward zero maps any coordinate in the open
interval `(-grid_world_size/2 - voxel_size, -grid_world_size/2)` —
strictly outside the grid's world cube — to index `0`, which passes the
bounds check; concretely, with `pDeg` the sample point has
`x = -3/2 < -grid_world_size/2` yet its index triple is in bounds and
the call writes `500` into cell `(0, 1, 1)` of the zero grid. -/
theorem undershoot_coordinate_still_written :
    (∀ (w : ℝ) (s : ℤ) (c : ℝ), 0 < w → 0 < s →
      -(w / 2) - w / (s : ℝ) < c → c < -(w / 2) → coordIndexAx w s c = 0) ∧
    (current_point pDeg 0).x < -(grid_half_size pDeg) ∧
    inIdxBounds pDeg (sampleIdx pDeg 0) ∧
    project_ray_to_voxels pDeg zeroGrid 0 1 1 = 500 := by
  refine ⟨?_, ?_, inIdxBounds_pDeg 0, project_pDeg_val⟩
  · intro w s c hw hs h1 h2
    have hsR : (0 : ℝ) < (s : ℝ) := by exact_mod_cast hs
    have hin := (coordIndexAx_inRange_iff w s c hw hs).2 ⟨h1, by linarith⟩
    have hnum : c + w / 2 < 0 := by linarith
    have hvneg : (c + w / 2) / w * (s : ℝ) < 0 :=
      mul_neg_of_neg_of_pos (div_neg_of_neg_of_pos hnum hw) hsR
    have hle : coordIndexAx w s c ≤ 0 := by
      unfold coordIndexAx truncToInt
      rw [if_neg (not_le.2 hvneg)]
      exact Int.ceil_le.2 (by push_cast; linarith)
    exact le_antisymm hle hin.1
  · unfold pDeg
    rw [current_point_degParams]
    unfold grid_half_size
    simp only [degParams]
    norm_num

/-- Witness for C9's general interval fact at `w = 2`, `s = 2`,
`c = -3/2`. -/
theorem undershoot_coordinate_still_written_witness :
    (0 : ℝ) < 2 ∧ (0 : ℤ) < 2 ∧
    -((2 : ℝ) / 2) - 2 / (((2 : ℤ)) : ℝ) < -(3 / 2) ∧
    (-(3 / 2) : ℝ) < -(2 / 2) ∧ coordIndexAx 2 2 (-(3 / 2)) = 0 :=
  ⟨by norm_num, by norm_num, by norm_num, by norm_num,
   undershoot_coordinate_still_written.1 2 2 (-(3 / 2)) (by norm_num)
     (by norm_num) (by norm_num) (by norm_num)⟩

/-- Modelled from the spec (§4.2 step 3): the index mapping written
there as `index = floor((coord + grid_world_size/2) / grid_world_size *
grid_size)`, with a true mathematical floor. -/
def specFloorIndexAx (w : ℝ) (s : ℤ) (c : ℝ) : ℤ :=
  ⌊((c + w / 2) / w) * (s : ℝ)⌋

/-- Counterexample to C3 as stated: at the sample point of `pDeg`
(x-coordinate `-3/2`, scaled value `-1/2`) the code's truncation toward
zero gives index `0` while the spec's `floor` gives `-1`; the two
descriptions the spec equates are not the same mapping. -/
theorem trunc_vs_floor_cex :
    (current_point pDeg 0).x = -(3 / 2) ∧
    coordIndex pDeg (current_point pDeg 0).x = 0 ∧
    specFloorIndexAx pDeg.grid_world_size pDeg.grid_size
      (current_point pDeg 0).x = -1 := by
  have hx : (current_point pDeg 0).x = -(3 / 2) := by
    unfold pDeg
    rw [current_point_degParams]
  refine ⟨hx, ?_, ?_⟩
  · rw [hx]
    unfold coordIndex pDeg degParams
    simp only
    exact coordIndexAx_negHalf
  · rw [hx]
    unfold pDeg degParams specFloorIndexAx
    simp only
    have hv : ((-(3 / 2) : ℝ) + 2 / 2) / 2 * ((2 : ℤ) : ℝ) = -(1 / 2) := by
      norm_num
    rw [hv]
    rw [Int.floor_eq_iff]
    constructor <;> norm_num

/-- C3 amended: each coordinate is mapped by truncation toward zero of
the scaled value `((coord + half) / world) * size`; this coincides with
the spec's `floor` exactly when the scaled value is nonnegative, and is
the ceiling (in general different from the floor) when it is
negative. -/
theorem coordIndex_trunc_floor (w : ℝ) (s : ℤ) (c : ℝ) :
    (0 ≤ (c + w / 2) / w * (s : ℝ) →
      coordIndexAx w s c = specFloorIndexAx w s c) ∧
    ((c + w / 2) / w * (s : ℝ) < 0 →
      coordIndexAx w s c = ⌈(c + w / 2) / w * (s : ℝ)⌉) := by
  constructor
  · intro h
    unfold coordIndexAx specFloorIndexAx truncToInt
    rw [if_pos h]
  · intro h
    unfold coordIndexAx truncToInt
    rw [if_neg (not_le.2 h)]

/-- Witness for the amended C3 at `w = 2`, `s = 2`, `c = 0` (scaled
value `1 ≥ 0`). -/
theorem coordIndex_trunc_floor_witness :
    0 ≤ ((0 : ℝ) + 2 / 2) / 2 * (((2 : ℤ)) : ℝ) ∧
      coordIndexAx 2 2 0 = specFloorIndexAx 2 2 0 :=
  ⟨by norm_num, (coordIndex_trunc_floor 2 2 0).1 (by norm_num)⟩

/-- The parameter set of spec §8's first testable property:
`fov_degrees = 90`, a 100 × 100 image, pixel at the principal point
`(50, 50)`. -/
def pPrincipal : Params :=
  { p_x := 50, p_y := 50, cam_pos_x := 0, cam_pos_y := 0, cam_pos_z := 0,
    img_w := 100, img_h := 100, fov_degrees := 90, grid_size := 256,
    grid_world_size := 1000, brightness := 1 }

lemma fov_rad_half_pPrincipal : fov_rad pPrincipal / 2 = Real.pi / 4 := by
  unfold fov_rad pPrincipal
  simp only
  ring

lemma focal_length_pPrincipal : focal_length pPrincipal = 50 := by
  unfold focal_length
  rw [fov_rad_half_pPrincipal, Real.tan_pi_div_four]
  show ((pPrincipal.img_w : ℤ) : ℝ) / 2 / 1 = 50
  norm_num [pPrincipal]

lemma ray_cam_pPrincipal :
    ray_cam pPrincipal = { x := 0, y := 0, z := -50 } := by
  unfold ray_cam
  rw [focal_length_pPrincipal]
  simp only [pPrincipal, Vec3.mk.injEq]
  norm_num

lemma vecNorm_pPrincipal : vecNorm (ray_cam pPrincipal) = 50 := by
  rw [ray_cam_pPrincipal]
  unfold vecNorm
  simp only
  rw [show (0 : ℝ) * 0 + 0 * 0 + (-50) * (-50) = 50 ^ 2 by norm_num]
  exact Real.sqrt_sq (by norm_num)

/-- C4: for `fov_degrees = 90`, `img_w = img_h = 100`,
`p_x = p_y = 50`, the generated ray direction equals `(0, 0, -1)`
exactly after normalization. -/
theorem ray_dir_principal_point :
    ray_world_dir pPrincipal = { x := 0, y := 0, z := -1 } := by
  unfold ray_world_dir
  rw [vecNorm_pPrincipal, ray_cam_pPrincipal]
  rw [if_pos (by norm_num)]
  simp only [Vec3.mk.injEq]
  norm_num

/-- C5: whenever the pre-normalization camera-space vector's norm
exceeds `1e-6`, the direction after normalization has Euclidean norm
exactly `1`. -/
theorem ray_dir_unit_norm (p : Params)
    (h : vecNorm (ray_cam p) > 1e-6) :
    vecNorm (ray_world_dir p) = 1 := by
  unfold ray_world_dir
  rw [if_pos h]
  set n := vecNorm (ray_cam p) with hn
  have hpos : 0 < n := lt_trans (show (0 : ℝ) < 1e-6 by norm_num) h
  have hn0 : n ≠ 0 := ne_of_gt hpos
  have hS : 0 ≤ (ray_cam p).x * (ray_cam p).x + (ray_cam p).y * (ray_cam p).y
      + (ray_cam p).z * (ray_cam p).z := by
    nlinarith [mul_self_nonneg (ray_cam p).x, mul_self_nonneg (ray_cam p).y,
      mul_self_nonneg (ray_cam p).z]
  have hsum : (ray_cam p).x * (ray_cam p).x + (ray_cam p).y * (ray_cam p).y
      + (ray_cam p).z * (ray_cam p).z = n * n := by
    rw [hn]
    unfold vecNorm
    exact (Real.mul_self_sqrt hS).symm
  unfold vecNorm
  simp only
  have hq : (ray_cam p).x / n * ((ray_cam p).x / n) +
      (ray_cam p).y / n * ((ray_cam p).y / n) +
      (ray_cam p).z / n * ((ray_cam p).z / n) = 1 := by
    field_simp
    linear_combination hsum
  rw [hq, Real.sqrt_one]

/-- Witness for C5 at the principal-point parameters, whose
pre-normalization norm is `50 > 1e-6`. -/
theorem ray_dir_unit_norm_witness :
    vecNorm (ray_cam pPrincipal) > 1e-6 ∧
      vecNorm (ray_world_dir pPrincipal) = 1 := by
  have h : vecNorm (ray_cam pPrincipal) > 1e-6 := by
    rw [vecNorm_pPrincipal]
    norm_num
  exact ⟨h, ray_dir_unit_norm pPrincipal h⟩

/-- C6: calls are purely additive — any call adds to each voxel exactly
the contribution it would deposit on the zero grid, so two identical
calls on a zero-initialized grid yield exactly double the single-call
value at every voxel. -/
theorem project_ray_twice_doubles (p : Params) (g : Grid) (a b c : ℤ) :
    project_ray_to_voxels p g a b c =
      g a b c + project_ray_to_voxels p zeroGrid a b c ∧
    project_ray_to_voxels p (project_ray_to_voxels p zeroGrid) a b c =
      2 * project_ray_to_voxels p zeroGrid a b c := by
  constructor
  · rw [project_apply p g a b c, project_apply p zeroGrid a b c]
    simp only [zeroGrid]
    ring
  · rw [project_apply p (project_ray_to_voxels p zeroGrid) a b c,
      project_apply p zeroGrid a b c]
    simp only [zeroGrid]
    ring

/-- The bounds-check predicate at loop iteration `i`. -/
def inBoundsAt (p : Params) (i : ℕ) : Prop := inIdxBounds p (sampleIdx p i)

instance (p : Params) (i : ℕ) : Decidable (inBoundsAt p i) := by
  unfold inBoundsAt; exact inferInstance

lemma stepWrite_skip (p : Params) (g : Grid) (i : ℕ)
    (h : ¬ inBoundsAt p i) : stepWrite p g i = g := by
  unfold inBoundsAt at h
  unfold stepWrite
  rw [if_neg h]

lemma foldl_filter_stepWrite (p : Params) (l : List ℕ) : ∀ g : Grid,
    l.foldl (stepWrite p) g =
      (l.filter (fun i => decide (inBoundsAt p i))).foldl (stepWrite p) g := by
  induction l with
  | nil => intro g; rfl
  | cons i l ih =>
      intro g
      by_cases h : inBoundsAt p i
      · have hf : (i :: l).filter (fun j => decide (inBoundsAt p j)) =
            i :: l.filter (fun j => decide (inBoundsAt p j)) := by
          simp [List.filter_cons, h]
        rw [List.foldl_cons, hf, List.foldl_cons]
        exact ih (stepWrite p g i)
      · have hf : (i :: l).filter (fun j => decide (inBoundsAt p j)) =
            l.filter (fun j => decide (inBoundsAt p j)) := by
          simp [List.filter_cons, h]
        rw [List.foldl_cons, hf, stepWrite_skip p g i h]
        exact ih g

/-- C7: the marcher uses horizon `t_max = 2 * grid_world_size`, exactly
500 equally spaced samples at `t = i * (t_max / 500)`, processes all
500 loop iterations for every ray, and an out-of-range sample leaves
the grid unchanged without ending the traversal: the whole call equals
the fold over only the in-bounds iterations of the full 500-element
range. -/
theorem march_fixed_steps (p : Params) (g : Grid) :
    t_max p = 2 * p.grid_world_size ∧
    step_count = 500 ∧
    (List.range step_count).length = 500 ∧
    (∀ i : ℕ, current_point p i =
      { x := (ray_origin p).x + ((i : ℝ) * (t_max p / 500)) *
          (ray_world_dir p).x
        y := (ray_origin p).y + ((i : ℝ) * (t_max p / 500)) *
          (ray_world_dir p).y
        z := (ray_origin p).z + ((i : ℝ) * (t_max p / 500)) *
          (ray_world_dir p).z }) ∧
    project_ray_to_voxels p g =
      (List.range step_count).foldl (stepWrite p) g ∧
    project_ray_to_voxels p g =
      ((List.range step_count).filter
        (fun i => decide (inBoundsAt p i))).foldl (stepWrite p) g ∧
    (∀ (i : ℕ) (gg : Grid), ¬ inBoundsAt p i → stepWrite p gg i = gg) := by
  refine ⟨?_, rfl, ?_, ?_, rfl, ?_, fun i gg h => stepWrite_skip p gg i h⟩
  · unfold t_max
    ring
  · exact List.length_range 500
  · intro i
    unfold current_point step_size step_count
    norm_num
  · unfold project_ray_to_voxels
    exact foldl_filter_stepWrite p (List.range step_count) g

/-- C8: when the pre-normalization norm is at most `1e-6`, the ray
direction is left unnormalized (it is exactly the camera-space vector);
the function is total — no error path exists for degenerate inputs. -/
theorem ray_dir_degenerate_unnormalized (p : Params)
    (h : vecNorm (ray_cam p) ≤ 1e-6) :
    ray_world_dir p = ray_cam p := by
  unfold ray_world_dir
  rw [if_neg (not_lt.2 h)]

/-- Witness for C8 at the degenerate parameters of `pDeg`, whose
camera-space vector is `(0, 0, 0)` with norm `0 ≤ 1e-6`. -/
theorem ray_dir_degenerate_unnormalized_witness :
    vecNorm (ray_cam pDeg) ≤ 1e-6 ∧ ray_world_dir pDeg = ray_cam pDeg := by
  have h : vecNorm (ray_cam pDeg) ≤ 1e-6 := by
    unfold pDeg
    rw [vecNorm_ray_cam_degParams]
    norm_num
  exact ⟨h, ray_dir_degenerate_unnormalized pDeg h⟩

lemma exists_count_sum (b : ℝ) : ∀ (l : List ℕ) (f : ℕ → ℝ),
    (∀ i ∈ l, f i = b ∨ f i = 0) →
    ∃ k : ℕ, k ≤ l.length ∧ (l.map f).sum = (k : ℝ) * b := by
  intro l
  induction l with
  | nil =>
      intro f _
      exact ⟨0, Nat.le_refl 0, by simp⟩
  | cons i l ih =>
      intro f hf
      obtain ⟨k, hk, hsum⟩ := ih f (fun j hj => hf j (List.mem_cons_of_mem i hj))
      rcases hf i (List.mem_cons_self i l) with h | h
      · refine ⟨k + 1, Nat.succ_le_succ hk, ?_⟩
        simp only [List.map_cons, List.sum_cons, h, hsum]
        push_cast
        ring
      · refine ⟨k, Nat.le_trans hk (Nat.le_succ _), ?_⟩
        simp only [List.map_cons, List.sum_cons, h, hsum, zero_add]

/-- C10: each call changes every voxel by exactly `k * brightness` for
some `k ≤ 500` (the number of samples landing in that voxel — possibly
several per call), and with nonnegative brightness no voxel's value
ever decreases. -/
theorem project_ray_adds_multiple_of_brightness (p : Params) (g : Grid)
    (a b c : ℤ) :
    ∃ k : ℕ, k ≤ 500 ∧
      project_ray_to_voxels p g a b c = g a b c + (k : ℝ) * p.brightness ∧
      (0 ≤ p.brightness → g a b c ≤ project_ray_to_voxels p g a b c) := by
  have hdelta : ∀ i ∈ List.range step_count,
      stepDelta p i a b c = p.brightness ∨ stepDelta p i a b c = 0 := by
    intro i _
    unfold stepDelta
    by_cases hcond : inIdxBounds p (sampleIdx p i) ∧ a = (sampleIdx p i).1 ∧
        b = (sampleIdx p i).2.1 ∧ c = (sampleIdx p i).2.2
    · left; rw [if_pos hcond]
    · right; rw [if_neg hcond]
  obtain ⟨k, hk, hsum⟩ :=
    exists_count_sum p.brightness (List.range step_count)
      (fun i => stepDelta p i a b c) hdelta
  have hk500 : k ≤ 500 := by
    have := List.length_range step_count
    rw [this] at hk
    exact hk
  refine ⟨k, hk500, ?_, ?_⟩
  · rw [project_apply, hsum]
  · intro hb
    rw [project_apply, hsum]
    have hkb : 0 ≤ (k : ℝ) * p.brightness :=
      mul_nonneg (Nat.cast_nonneg k) hb
    linarith

/-- Witness for C10 at the concrete parameters `pDeg` on the zero
grid at cell `(0, 1, 1)`. -/
theorem project_ray_adds_multiple_of_brightness_witness :
    ∃ k : ℕ, k ≤ 500 ∧
      project_ray_to_voxels pDeg zeroGrid 0 1 1 =
        zeroGrid 0 1 1 + (k : ℝ) * pDeg.brightness ∧
      (0 ≤ pDeg.brightness →
        zeroGrid 0 1 1 ≤ project_ray_to_voxels pDeg zeroGrid 0 1 1) :=
  project_ray_adds_multiple_of_brightness pDeg zeroGrid 0 1 1

/-- Witness for C7's skip conjunct at concrete inputs: with `pFar` the
sample at iteration `0` is out of range, the write is skipped, and the
grid passes through unchanged. -/
theorem march_fixed_steps_witness :
    ¬ inBoundsAt pFar 0 ∧ stepWrite pFar zeroGrid 0 = zeroGrid := by
  have hw : 0 < pFar.grid_world_size := by
    show (0 : ℝ) < 2
    norm_num
  have hs : 0 < pFar.grid_size := by
    show (0 : ℤ) < 2
    norm_num
  have h : ¬ inBoundsAt pFar 0 := by
    intro hB
    have hreg := inIdxBounds_imp_inWriteRegion pFar hw hs 0 hB
    unfold pFar at hreg
    rw [current_point_degParams] at hreg
    unfold inWriteRegion grid_half_size voxel_size at hreg
    simp only [degParams] at hreg
    have hx := hreg.1.2
    norm_num at hx
  exact ⟨h, (march_fixed_steps pFar zeroGrid).2.2.2.2.2.2 0 zeroGrid h⟩
